import Mathlib

/-!
# Verification of `memory-allocator-rs` (`src/lib.rs`)

Shallow embedding of the bounded-capacity memory pool allocator.
Buffer addresses are modelled as natural numbers; the system allocator is
modelled by a `next_ptr` counter in the pool state, so every freshly created
region receives an address distinct from all previously created regions
(in the Rust code a live `MemoryBlock` is never dropped while the pool
exists, so its address is likewise never recycled).

Source correspondence:
* `MemoryBlock`  — Rust `struct MemoryBlock { ptr, size }`
* `MemoryPool`   — Rust `struct MemoryPool { free_list, allocated_list, pool_size }`
* `removeFirstFit` — the `for i in 0..free_list.len()` first-fit scan plus
  `VecDeque::remove(i)` in `MemoryPool::allocate`
* `position`     — `Vec::iter().position(|b| b.ptr == ptr)` in `deallocate`
* `swapRemove`   — `Vec::swap_remove(index)` in `deallocate`
-/

/-- Rust `MemoryBlock`: a raw buffer address plus a byte size. -/
structure MemoryBlock where
  ptr : Nat
  size : Nat
deriving DecidableEq, Repr

/-- Rust `MemoryPool` state, extended with `next_ptr`, the model of the
system allocator handing out fresh addresses. -/
structure MemoryPool where
  free_list : List MemoryBlock
  allocated_list : List MemoryBlock
  pool_size : Nat
  next_ptr : Nat
deriving DecidableEq, Repr

/-- Rust `MemoryPool::new(pool_size)`: empty lists, full budget. -/
def MemoryPool.new (pool_size : Nat) : MemoryPool :=
  { free_list := [], allocated_list := [], pool_size := pool_size, next_ptr := 0 }

/-- The first-fit scan of `MemoryPool::allocate`: walk the free list in
order; at the first block with `block.size >= size`, remove it and return
it together with the remaining list (`VecDeque::remove(i)`). -/
def removeFirstFit (size : Nat) : List MemoryBlock → Option (MemoryBlock × List MemoryBlock)
  | [] => none
  | b :: rest =>
    if size ≤ b.size then some (b, rest)
    else
      match removeFirstFit size rest with
      | some (blk, rest2) => some (blk, b :: rest2)
      | none => none

/-- Rust `MemoryPool::allocate(size)`. Reuse path: first fit from the free
list moves to the end of `allocated_list` (`Vec::push`). Growth path: if
`pool_size >= size`, a fresh block of exactly `size` is created at the next
fresh address, pushed onto `allocated_list`, and the budget is decremented.
Otherwise `none`. Returns the granted address alongside the new state. -/
def MemoryPool.allocate (p : MemoryPool) (size : Nat) : Option Nat × MemoryPool :=
  match removeFirstFit size p.free_list with
  | some (block, rest) =>
    (some block.ptr,
      { p with free_list := rest, allocated_list := p.allocated_list ++ [block] })
  | none =>
    if size ≤ p.pool_size then
      (some p.next_ptr,
        { p with allocated_list := p.allocated_list ++ [⟨p.next_ptr, size⟩],
                 pool_size := p.pool_size - size,
                 next_ptr := p.next_ptr + 1 })
    else
      (none, p)

/-- Rust `Vec::iter().position(pred)`: index of the first element
satisfying the predicate. -/
def position (pr : MemoryBlock → Bool) : List MemoryBlock → Option Nat
  | [] => none
  | b :: rest => if pr b then some 0 else (position pr rest).map (· + 1)

/-- Rust `Vec::swap_remove(i)`: overwrite index `i` with the last element,
then pop the last element. -/
def swapRemove (l : List MemoryBlock) (i : Nat) : List MemoryBlock :=
  match l.getLast? with
  | none => []
  | some last => (l.set i last).dropLast

/-- Rust `MemoryPool::deallocate(ptr)`: find the active block whose address
equals `ptr`; if found, `swap_remove` it from `allocated_list` and push it
onto the back of `free_list`; otherwise do nothing. -/
def MemoryPool.deallocate (p : MemoryPool) (ptr : Nat) : MemoryPool :=
  match position (fun b => b.ptr == ptr) p.allocated_list with
  | some index =>
    match p.allocated_list.get? index with
    | some block =>
      { p with allocated_list := swapRemove p.allocated_list index,
               free_list := p.free_list ++ [block] }
    | none => p
  | none => p

/-- One external call on the pool. -/
inductive Op where
  | alloc (size : Nat)
  | dealloc (ptr : Nat)
deriving DecidableEq, Repr

/-- Apply one call, keeping only the state. -/
def applyOp (p : MemoryPool) : Op → MemoryPool
  | .alloc s => (p.allocate s).2
  | .dealloc ptr => p.deallocate ptr

/-- Run a sequence of calls from a given state. -/
def run (p : MemoryPool) (ops : List Op) : MemoryPool :=
  ops.foldl applyOp p

/-- All blocks owned by the pool, free and active together. -/
def combined (p : MemoryPool) : List MemoryBlock :=
  p.free_list ++ p.allocated_list

/-! ## Helper lemmas about the scan primitives -/

/-- The first-fit scan fails exactly when every free block is too small. -/
theorem removeFirstFit_eq_none_iff (size : Nat) (l : List MemoryBlock) :
    removeFirstFit size l = none ↔ ∀ b ∈ l, b.size < size := by
  induction l with
  | nil => simp [removeFirstFit]
  | cons b rest ih =>
    by_cases h : size ≤ b.size
    · simp only [removeFirstFit, if_pos h, List.mem_cons]
      constructor
      · intro hc; cases hc
      · intro hall
        exact absurd (hall b (Or.inl rfl)) (Nat.not_lt.mpr h)
    · simp only [removeFirstFit, if_neg h, List.mem_cons]
      constructor
      · intro hc
        cases hr : removeFirstFit size rest with
        | none =>
          intro x hx
          rcases hx with hx | hx
          · subst hx; exact Nat.lt_of_not_le h
          · exact (ih.mp hr) x hx
        | some pr =>
          rw [hr] at hc
          obtain ⟨blk, rest2⟩ := pr
          simp at hc
      · intro hall
        have hrest : removeFirstFit size rest = none :=
          ih.mpr (fun x hx => hall x (Or.inr hx))
        rw [hrest]

/-- The first-fit scan on `pre ++ blk :: post` selects `blk` when every
block in `pre` is too small and `blk` is big enough. -/
theorem removeFirstFit_append (size : Nat) (pre post : List MemoryBlock)
    (blk : MemoryBlock) (hpre : ∀ b ∈ pre, b.size < size) (hblk : size ≤ blk.size) :
    removeFirstFit size (pre ++ blk :: post) = some (blk, pre ++ post) := by
  induction pre with
  | nil => simp [removeFirstFit, if_pos hblk]
  | cons b rest ih =>
    have hb : ¬ size ≤ b.size :=
      Nat.not_le.mpr (hpre b (List.mem_cons_self b rest))
    have ih2 := ih (fun x hx => hpre x (List.mem_cons_of_mem b hx))
    rw [List.cons_append]
    simp only [removeFirstFit, if_neg hb]
    rw [ih2]
    rfl

/-- A successful first-fit scan removes exactly the selected block: the
selected block consed onto the leftover list is a permutation of the input. -/
theorem removeFirstFit_perm (size : Nat) (l rest : List MemoryBlock)
    (blk : MemoryBlock) (h : removeFirstFit size l = some (blk, rest)) :
    (blk :: rest).Perm l := by
  induction l generalizing rest with
  | nil => simp [removeFirstFit] at h
  | cons b tl ih =>
    by_cases hb : size ≤ b.size
    · simp only [removeFirstFit, if_pos hb, Option.some.injEq, Prod.mk.injEq] at h
      rw [← h.1, ← h.2]
    · simp only [removeFirstFit, if_neg hb] at h
      cases hr : removeFirstFit size tl with
      | none =>
        rw [hr] at h; simp at h
      | some pr =>
        rw [hr] at h
        obtain ⟨blk', rest'⟩ := pr
        simp only [Option.some.injEq, Prod.mk.injEq] at h
        obtain ⟨h1, h2⟩ := h
        subst h1
        rw [← h2]
        exact (List.Perm.swap b blk' rest').trans (List.Perm.cons b (ih rest' hr))

/-- A successful first-fit scan returns a block large enough. -/
theorem removeFirstFit_size (size : Nat) (l rest : List MemoryBlock)
    (blk : MemoryBlock) (h : removeFirstFit size l = some (blk, rest)) :
    size ≤ blk.size := by
  induction l generalizing rest with
  | nil => simp [removeFirstFit] at h
  | cons b tl ih =>
    by_cases hb : size ≤ b.size
    · simp only [removeFirstFit, if_pos hb, Option.some.injEq, Prod.mk.injEq] at h
      rw [← h.1]; exact hb
    · simp only [removeFirstFit, if_neg hb] at h
      cases hr : removeFirstFit size tl with
      | none =>
        rw [hr] at h; simp at h
      | some pr =>
        rw [hr] at h
        obtain ⟨blk', rest'⟩ := pr
        simp only [Option.some.injEq, Prod.mk.injEq] at h
        obtain ⟨h1, h2⟩ := h
        subst h1
        exact ih rest' hr

/-- `position` fails exactly when no element satisfies the predicate. -/
theorem position_eq_none_iff (pr : MemoryBlock → Bool) (l : List MemoryBlock) :
    position pr l = none ↔ ∀ b ∈ l, pr b = false := by
  induction l with
  | nil => simp [position]
  | cons b rest ih =>
    by_cases h : pr b
    · simp [position, h]
    · simp only [position, if_neg h, List.mem_cons]
      cases hr : position pr rest with
      | none =>
        constructor
        · intro _ x hx
          rcases hx with hx | hx
          · subst hx; exact Bool.eq_false_iff.mpr h
          · exact (ih.mp hr) x hx
        · intro _; rfl
      | some j =>
        constructor
        · intro hc; simp at hc
        · intro hall
          have hnone : position pr rest = none :=
            ih.mpr (fun x hx => hall x (Or.inr hx))
          rw [hnone] at hr; cases hr

/-- A successful `position` points at an element satisfying the predicate. -/
theorem position_some (pr : MemoryBlock → Bool) (l : List MemoryBlock) (i : Nat)
    (h : position pr l = some i) : ∃ blk, l.get? i = some blk ∧ pr blk = true := by
  induction l generalizing i with
  | nil => simp [position] at h
  | cons b rest ih =>
    by_cases hb : pr b
    · simp only [position, if_pos hb, Option.some.injEq] at h
      subst h
      exact ⟨b, rfl, hb⟩
    · simp only [position, if_neg hb] at h
      cases hr : position pr rest with
      | none =>
        rw [hr] at h; simp at h
      | some j =>
        rw [hr] at h
        simp only [Option.map_some', Option.some.injEq] at h
        subst h
        obtain ⟨blk, hget, hpr⟩ := ih j hr
        exact ⟨blk, by simpa using hget, hpr⟩

/-- `swap_remove` removes exactly the indexed element: the element consed
onto the shrunken list is a permutation of the original list. -/
theorem swapRemove_perm (l : List MemoryBlock) (i : Nat) (blk : MemoryBlock)
    (h : l.get? i = some blk) : (blk :: swapRemove l i).Perm l := by
  induction l generalizing i with
  | nil => simp at h
  | cons b rest ih =>
    cases i with
    | zero =>
      have hb : b = blk := by simpa using h
      subst hb
      cases rest with
      | nil =>
        have hz : swapRemove [b] 0 = [] := rfl
        rw [hz]
      | cons r rs =>
        cases hl : (r :: rs).getLast? with
        | none => simp at hl
        | some last =>
          have hsr : swapRemove (b :: r :: rs) 0 = last :: (r :: rs).dropLast := by
            unfold swapRemove
            rw [List.getLast?_cons_cons, hl]
            rfl
          rw [hsr]
          refine List.Perm.cons b ?_
          have hd : (r :: rs).dropLast ++ [last] = r :: rs :=
            List.dropLast_append_getLast? last (Option.mem_def.mpr hl)
          have h1 : List.Perm (last :: (r :: rs).dropLast) ((r :: rs).dropLast ++ [last]) :=
            (List.perm_append_singleton _ _).symm
          rw [hd] at h1
          exact h1
    | succ j =>
      have h' : rest.get? j = some blk := by simpa using h
      cases rest with
      | nil => simp at h'
      | cons r rs =>
        cases hl : (r :: rs).getLast? with
        | none => simp at hl
        | some last =>
          have hsr : swapRemove (b :: r :: rs) (j + 1) = b :: swapRemove (r :: rs) j := by
            unfold swapRemove
            rw [List.getLast?_cons_cons, hl]
            show ((b :: r :: rs).set (j + 1) last).dropLast =
              b :: ((r :: rs).set j last).dropLast
            have hne : (r :: rs).set j last ≠ [] := by simp
            exact List.dropLast_cons_of_ne_nil hne
          rw [hsr]
          exact (List.Perm.swap b blk _).trans (List.Perm.cons b (ih j h'))

/-! ## Path equations for `allocate` and `deallocate` -/

/-- Reuse path: a successful first-fit scan fixes the whole result. -/
theorem allocate_eq_reuse (p : MemoryPool) (s : Nat) (blk : MemoryBlock)
    (rest : List MemoryBlock) (hr : removeFirstFit s p.free_list = some (blk, rest)) :
    p.allocate s = (some blk.ptr,
      { p with free_list := rest, allocated_list := p.allocated_list ++ [blk] }) := by
  unfold MemoryPool.allocate
  rw [hr]

/-- Growth path: failed scan with enough budget creates a fresh block. -/
theorem allocate_eq_growth (p : MemoryPool) (s : Nat)
    (hr : removeFirstFit s p.free_list = none) (hs : s ≤ p.pool_size) :
    p.allocate s = (some p.next_ptr,
      { p with allocated_list := p.allocated_list ++ [⟨p.next_ptr, s⟩],
               pool_size := p.pool_size - s, next_ptr := p.next_ptr + 1 }) := by
  unfold MemoryPool.allocate
  rw [hr, if_pos hs]

/-- Exhaustion path: failed scan and insufficient budget change nothing. -/
theorem allocate_eq_fail (p : MemoryPool) (s : Nat)
    (hr : removeFirstFit s p.free_list = none) (hs : ¬ s ≤ p.pool_size) :
    p.allocate s = (none, p) := by
  unfold MemoryPool.allocate
  rw [hr, if_neg hs]

/-- Found path of `deallocate`: the matched block moves to the free list. -/
theorem deallocate_eq_found (p : MemoryPool) (ptr : Nat) (i : Nat) (blk : MemoryBlock)
    (hp : position (fun b => b.ptr == ptr) p.allocated_list = some i)
    (hg : p.allocated_list.get? i = some blk) :
    p.deallocate ptr = { p with allocated_list := swapRemove p.allocated_list i,
                                free_list := p.free_list ++ [blk] } := by
  unfold MemoryPool.deallocate
  rw [hp]
  show (match p.allocated_list.get? i with
    | some block =>
      { p with allocated_list := swapRemove p.allocated_list i,
               free_list := p.free_list ++ [block] }
    | none => p) =
    { p with allocated_list := swapRemove p.allocated_list i,
             free_list := p.free_list ++ [blk] }
  rw [hg]

/-- Missing path of `deallocate`: an unknown address changes nothing. -/
theorem deallocate_eq_missing (p : MemoryPool) (ptr : Nat)
    (hp : position (fun b => b.ptr == ptr) p.allocated_list = none) :
    p.deallocate ptr = p := by
  unfold MemoryPool.deallocate
  rw [hp]

-- Sanity checks against the Rust unit test `test_memory_pool`.
example : ((MemoryPool.new 1024).allocate 256).1 = some 0 := by decide
example : (((MemoryPool.new 1024).allocate 256).2.allocate 800).1 = none := by decide
example :
    ((((MemoryPool.new 1024).allocate 256).2.deallocate 0).allocate 256).1 = some 0 := by
  decide

/-! ## Claim theorems -/

/-- C1: `allocate(size)` returns `none` exactly when no free block has
size at least `size` and the remaining budget is strictly below `size`;
in every other state it returns `some` handle. -/
theorem allocate_none_iff (p : MemoryPool) (size : Nat) :
    (p.allocate size).1 = none ↔
      (∀ b ∈ p.free_list, b.size < size) ∧ p.pool_size < size := by
  cases hr : removeFirstFit size p.free_list with
  | some pr =>
    obtain ⟨blk, rest⟩ := pr
    rw [allocate_eq_reuse p size blk rest hr]
    constructor
    · intro hc; cases hc
    · rintro ⟨hall, _⟩
      rw [(removeFirstFit_eq_none_iff size p.free_list).mpr hall] at hr
      cases hr
  | none =>
    by_cases hs : size ≤ p.pool_size
    · rw [allocate_eq_growth p size hr hs]
      constructor
      · intro hc; cases hc
      · rintro ⟨_, hlt⟩
        exact absurd hs (Nat.not_le.mpr hlt)
    · rw [allocate_eq_fail p size hr hs]
      constructor
      · intro _
        exact ⟨(removeFirstFit_eq_none_iff size p.free_list).mp hr,
          Nat.lt_of_not_le hs⟩
      · intro _; rfl

/-- C2: when the free list splits as `pre ++ blk :: post` with every block
of `pre` too small and `blk` big enough, `allocate` takes `blk` (the first
fit in insertion order, even if a later block matches exactly), removes it
from the free list, appends it to the active list, and returns its address;
budget and the fresh-address counter are untouched. -/
theorem allocate_reuse_first_fit (p : MemoryPool) (size : Nat)
    (pre post : List MemoryBlock) (blk : MemoryBlock)
    (hsplit : p.free_list = pre ++ blk :: post)
    (hpre : ∀ b ∈ pre, b.size < size) (hblk : size ≤ blk.size) :
    (p.allocate size).1 = some blk.ptr ∧
    (p.allocate size).2.free_list = pre ++ post ∧
    (p.allocate size).2.allocated_list = p.allocated_list ++ [blk] ∧
    (p.allocate size).2.pool_size = p.pool_size ∧
    (p.allocate size).2.next_ptr = p.next_ptr := by
  have hr : removeFirstFit size p.free_list = some (blk, pre ++ post) := by
    rw [hsplit]
    exact removeFirstFit_append size pre post blk hpre hblk
  rw [allocate_eq_reuse p size blk (pre ++ post) hr]
  exact ⟨rfl, rfl, rfl, rfl, rfl⟩

/-- Witness for C2 at a concrete pool: the free list holds an oversized
block of size 10 ahead of an exact match of size 3; the request for 3 is
served by the first (oversized) block. -/
theorem allocate_reuse_first_fit_witness :
    (MemoryPool.allocate
        ⟨[⟨0, 10⟩, ⟨1, 3⟩], [], 5, 2⟩ 3).1 = some 0 ∧
    (MemoryPool.allocate ⟨[⟨0, 10⟩, ⟨1, 3⟩], [], 5, 2⟩ 3).2.free_list = [⟨1, 3⟩] ∧
    (MemoryPool.allocate ⟨[⟨0, 10⟩, ⟨1, 3⟩], [], 5, 2⟩ 3).2.allocated_list = [⟨0, 10⟩] ∧
    (MemoryPool.allocate ⟨[⟨0, 10⟩, ⟨1, 3⟩], [], 5, 2⟩ 3).2.pool_size = 5 ∧
    (MemoryPool.allocate ⟨[⟨0, 10⟩, ⟨1, 3⟩], [], 5, 2⟩ 3).2.next_ptr = 2 :=
  allocate_reuse_first_fit ⟨[⟨0, 10⟩, ⟨1, 3⟩], [], 5, 2⟩ 3 [] [⟨1, 3⟩] ⟨0, 10⟩
    rfl (by simp) (by decide)

/-- C3: when no free block fits and the budget suffices, `allocate`
creates a fresh region of exactly the requested size at the next fresh
address, appends it to the active list, decrements the budget by exactly
the requested size, and returns the fresh handle. -/
theorem allocate_growth (p : MemoryPool) (size : Nat)
    (hfree : ∀ b ∈ p.free_list, b.size < size) (hbudget : size ≤ p.pool_size) :
    (p.allocate size).1 = some p.next_ptr ∧
    (p.allocate size).2.free_list = p.free_list ∧
    (p.allocate size).2.allocated_list = p.allocated_list ++ [⟨p.next_ptr, size⟩] ∧
    (p.allocate size).2.pool_size = p.pool_size - size ∧
    p.pool_size - (p.allocate size).2.pool_size = size ∧
    (p.allocate size).2.next_ptr = p.next_ptr + 1 := by
  have hr : removeFirstFit size p.free_list = none :=
    (removeFirstFit_eq_none_iff size p.free_list).mpr hfree
  rw [allocate_eq_growth p size hr hbudget]
  exact ⟨rfl, rfl, rfl, rfl, Nat.sub_sub_self hbudget, rfl⟩

/-- Witness for C3, mirroring the spec example: `create(1024)` then
`allocate(256)` succeeds with remaining budget 768. -/
theorem allocate_growth_witness :
    ((MemoryPool.new 1024).allocate 256).1 = some 0 ∧
    ((MemoryPool.new 1024).allocate 256).2.free_list = [] ∧
    ((MemoryPool.new 1024).allocate 256).2.allocated_list = [⟨0, 256⟩] ∧
    ((MemoryPool.new 1024).allocate 256).2.pool_size = 768 ∧
    (1024 : Nat) - ((MemoryPool.new 1024).allocate 256).2.pool_size = 256 ∧
    ((MemoryPool.new 1024).allocate 256).2.next_ptr = 1 :=
  allocate_growth (MemoryPool.new 1024) 256 (by simp [MemoryPool.new]) (by decide)

/-- C4: deallocating an address present in the active list moves the first
block carrying that address (matched by address identity) from the active
list to the tail of the free list; budget and fresh-address counter are
unchanged. -/
theorem deallocate_active (p : MemoryPool) (ptr : Nat)
    (h : ∃ b ∈ p.allocated_list, b.ptr = ptr) :
    ∃ blk, blk.ptr = ptr ∧ blk ∈ p.allocated_list ∧
      (p.deallocate ptr).free_list = p.free_list ++ [blk] ∧
      (blk :: (p.deallocate ptr).allocated_list).Perm p.allocated_list ∧
      (p.deallocate ptr).pool_size = p.pool_size ∧
      (p.deallocate ptr).next_ptr = p.next_ptr := by
  obtain ⟨b0, hb0mem, hb0ptr⟩ := h
  have hpos : position (fun b => b.ptr == ptr) p.allocated_list ≠ none := by
    intro hc
    have hfalse := (position_eq_none_iff _ _).mp hc b0 hb0mem
    rw [hb0ptr] at hfalse
    simp at hfalse
  cases hp : position (fun b => b.ptr == ptr) p.allocated_list with
  | none => exact absurd hp hpos
  | some i =>
    obtain ⟨blk, hget, hpr⟩ := position_some _ _ i hp
    have hres := deallocate_eq_found p ptr i blk hp hget
    refine ⟨blk, by simpa using hpr, List.get?_mem hget, ?_, ?_, ?_, ?_⟩
    · rw [hres]
    · rw [hres]
      exact swapRemove_perm _ i blk hget
    · rw [hres]
    · rw [hres]

/-- Witness for C4: in the pool reached by `create(1024); allocate(256)`,
deallocating handle 0 moves block `(0, 256)` to the free list. -/
theorem deallocate_active_witness :
    ∃ blk : MemoryBlock, blk.ptr = 0 ∧
      blk ∈ (((MemoryPool.new 1024).allocate 256).2).allocated_list ∧
      ((((MemoryPool.new 1024).allocate 256).2).deallocate 0).free_list =
        (((MemoryPool.new 1024).allocate 256).2).free_list ++ [blk] ∧
      (blk :: ((((MemoryPool.new 1024).allocate 256).2).deallocate 0).allocated_list).Perm
        (((MemoryPool.new 1024).allocate 256).2).allocated_list ∧
      ((((MemoryPool.new 1024).allocate 256).2).deallocate 0).pool_size =
        (((MemoryPool.new 1024).allocate 256).2).pool_size ∧
      ((((MemoryPool.new 1024).allocate 256).2).deallocate 0).next_ptr =
        (((MemoryPool.new 1024).allocate 256).2).next_ptr :=
  deallocate_active (((MemoryPool.new 1024).allocate 256).2) 0
    ⟨⟨0, 256⟩, by decide, rfl⟩

/-- C5: deallocating an address that matches no active block is a no-op:
the whole pool state is returned unchanged. -/
theorem deallocate_unknown_noop (p : MemoryPool) (ptr : Nat)
    (h : ∀ b ∈ p.allocated_list, b.ptr ≠ ptr) :
    p.deallocate ptr = p := by
  have hp : position (fun b => b.ptr == ptr) p.allocated_list = none :=
    (position_eq_none_iff _ _).mpr (fun b hb => by simpa using h b hb)
  exact deallocate_eq_missing p ptr hp

/-- Witness for C5, mirroring the spec example: deallocating a handle that
was never issued leaves the pool exactly as it was. -/
theorem deallocate_unknown_noop_witness :
    (((MemoryPool.new 1024).allocate 256).2).deallocate 99 =
      ((MemoryPool.new 1024).allocate 256).2 :=
  deallocate_unknown_noop (((MemoryPool.new 1024).allocate 256).2) 99 (by decide)

/-- C9: a request of size zero never fails: the budget check
`pool_size >= 0` always holds, so even with an empty free list and zero
budget a fresh zero-size region is granted. -/
theorem allocate_zero_succeeds (p : MemoryPool) :
    ((p.allocate 0).1).isSome = true := by
  cases hr : removeFirstFit 0 p.free_list with
  | some pr =>
    obtain ⟨blk, rest⟩ := pr
    rw [allocate_eq_reuse p 0 blk rest hr]
    rfl
  | none =>
    rw [allocate_eq_growth p 0 hr (Nat.zero_le _)]
    rfl

/-- C7: across any single call, the budget never increases; it strictly
decreases only on an allocate that takes the growth path (and then by
exactly the requested size); it is unchanged by every reuse-path allocate,
every failed allocate, and every deallocate. -/
theorem pool_size_monotone (p : MemoryPool) (op : Op) :
    (applyOp p op).pool_size ≤ p.pool_size ∧
    ((applyOp p op).pool_size < p.pool_size →
      ∃ s, op = Op.alloc s ∧ removeFirstFit s p.free_list = none ∧
        s ≤ p.pool_size ∧ (applyOp p op).pool_size = p.pool_size - s) ∧
    (∀ s blk rest, op = Op.alloc s →
      removeFirstFit s p.free_list = some (blk, rest) →
      (applyOp p op).pool_size = p.pool_size) ∧
    (∀ s, op = Op.alloc s → (p.allocate s).1 = none →
      (applyOp p op).pool_size = p.pool_size) ∧
    (∀ q, op = Op.dealloc q → (applyOp p op).pool_size = p.pool_size) := by
  cases op with
  | dealloc q =>
    have hq : (applyOp p (Op.dealloc q)).pool_size = p.pool_size := by
      show (p.deallocate q).pool_size = p.pool_size
      cases hp : position (fun b => b.ptr == q) p.allocated_list with
      | none => rw [deallocate_eq_missing p q hp]
      | some i =>
        obtain ⟨blk, hget, _⟩ := position_some _ _ i hp
        rw [deallocate_eq_found p q i blk hp hget]
    refine ⟨Nat.le_of_eq hq, ?_, ?_, ?_, ?_⟩
    · intro hlt; rw [hq] at hlt; exact absurd hlt (Nat.lt_irrefl _)
    · intro s blk rest heq; cases heq
    · intro s heq; cases heq
    · intro q' _; exact hq
  | alloc s =>
    cases hr : removeFirstFit s p.free_list with
    | some pr =>
      obtain ⟨blk, rest⟩ := pr
      have hq : (applyOp p (Op.alloc s)).pool_size = p.pool_size := by
        show ((p.allocate s).2).pool_size = p.pool_size
        rw [allocate_eq_reuse p s blk rest hr]
      refine ⟨Nat.le_of_eq hq, ?_, ?_, ?_, ?_⟩
      · intro hlt; rw [hq] at hlt; exact absurd hlt (Nat.lt_irrefl _)
      · intro s' blk' rest' heq _
        exact hq
      · intro s' heq _
        exact hq
      · intro q heq; cases heq
    | none =>
      by_cases hs : s ≤ p.pool_size
      · have hq : (applyOp p (Op.alloc s)).pool_size = p.pool_size - s := by
          show ((p.allocate s).2).pool_size = p.pool_size - s
          rw [allocate_eq_growth p s hr hs]
        refine ⟨hq ▸ Nat.sub_le _ _, ?_, ?_, ?_, ?_⟩
        · intro _; exact ⟨s, rfl, hr, hs, hq⟩
        · intro s' blk' rest' heq hsome
          injection heq with hss
          subst hss
          rw [hr] at hsome
          cases hsome
        · intro s' heq hnone
          injection heq with hss
          subst hss
          rw [allocate_eq_growth p s hr hs] at hnone
          cases hnone
        · intro q heq; cases heq
      · have hq : (applyOp p (Op.alloc s)).pool_size = p.pool_size := by
          show ((p.allocate s).2).pool_size = p.pool_size
          rw [allocate_eq_fail p s hr hs]
        refine ⟨Nat.le_of_eq hq, ?_, ?_, ?_, ?_⟩
        · intro hlt; rw [hq] at hlt; exact absurd hlt (Nat.lt_irrefl _)
        · intro s' blk' rest' heq _
          exact hq
        · intro s' heq _; exact hq
        · intro q heq; cases heq

/-- Shared path analysis for the whole block collection: every call either
permutes the pool's blocks (moving them whole between the two lists) or —
only on a growth-path allocate — adds one fresh block of exactly the
requested size, bumping the fresh-address counter. -/
theorem combined_perm (p : MemoryPool) (op : Op) :
    ((combined (applyOp p op)).Perm (combined p) ∧
      (applyOp p op).next_ptr = p.next_ptr) ∨
    ∃ s, op = Op.alloc s ∧
      (combined (applyOp p op)).Perm (combined p ++ [⟨p.next_ptr, s⟩]) ∧
      (applyOp p op).next_ptr = p.next_ptr + 1 := by
  cases op with
  | alloc s =>
    cases hr : removeFirstFit s p.free_list with
    | some pr =>
      obtain ⟨blk, rest⟩ := pr
      left
      have he : (p.allocate s).2 =
          { p with free_list := rest, allocated_list := p.allocated_list ++ [blk] } := by
        rw [allocate_eq_reuse p s blk rest hr]
      constructor
      · show (combined (p.allocate s).2).Perm (combined p)
        rw [he]
        show (rest ++ (p.allocated_list ++ [blk])).Perm
          (p.free_list ++ p.allocated_list)
        have h1 : (rest ++ (p.allocated_list ++ [blk])).Perm
            (rest ++ (blk :: p.allocated_list)) :=
          List.Perm.append_left rest (List.perm_append_singleton blk p.allocated_list)
        have h2 : (rest ++ (blk :: p.allocated_list)).Perm
            (blk :: (rest ++ p.allocated_list)) := List.perm_middle
        have h3 : ((blk :: rest) ++ p.allocated_list).Perm
            (p.free_list ++ p.allocated_list) :=
          List.Perm.append_right p.allocated_list
            (removeFirstFit_perm s p.free_list rest blk hr)
        exact (h1.trans h2).trans h3
      · show ((p.allocate s).2).next_ptr = p.next_ptr
        rw [he]
    | none =>
      by_cases hs : s ≤ p.pool_size
      · right
        refine ⟨s, rfl, ?_, ?_⟩
        · show (combined (p.allocate s).2).Perm (combined p ++ [⟨p.next_ptr, s⟩])
          rw [allocate_eq_growth p s hr hs]
          show (p.free_list ++ (p.allocated_list ++ [(⟨p.next_ptr, s⟩ : MemoryBlock)])).Perm
            ((p.free_list ++ p.allocated_list) ++ [(⟨p.next_ptr, s⟩ : MemoryBlock)])
          rw [List.append_assoc]
        · show ((p.allocate s).2).next_ptr = p.next_ptr + 1
          rw [allocate_eq_growth p s hr hs]
      · left
        have he : (p.allocate s).2 = p := by rw [allocate_eq_fail p s hr hs]
        constructor
        · show (combined (p.allocate s).2).Perm (combined p)
          rw [he]
        · show ((p.allocate s).2).next_ptr = p.next_ptr
          rw [he]
  | dealloc q =>
    left
    cases hp : position (fun b => b.ptr == q) p.allocated_list with
    | none =>
      have he : p.deallocate q = p := deallocate_eq_missing p q hp
      constructor
      · show (combined (p.deallocate q)).Perm (combined p)
        rw [he]
      · show (p.deallocate q).next_ptr = p.next_ptr
        rw [he]
    | some i =>
      obtain ⟨blk, hget, _⟩ := position_some _ _ i hp
      have he := deallocate_eq_found p q i blk hp hget
      constructor
      · show (combined (p.deallocate q)).Perm (combined p)
        rw [he]
        show ((p.free_list ++ [blk]) ++ swapRemove p.allocated_list i).Perm
          (p.free_list ++ p.allocated_list)
        rw [List.append_assoc]
        exact List.Perm.append_left p.free_list
          (swapRemove_perm p.allocated_list i blk hget)
      · show (p.deallocate q).next_ptr = p.next_ptr
        rw [he]

/-- C10: no call ever modifies a block's recorded address or size: each
call either permutes the existing blocks between the two lists (reuse,
failed allocate, deallocate) or appends one brand-new block of exactly the
requested size (growth path). -/
theorem blocks_move_whole (p : MemoryPool) (op : Op) :
    (combined (applyOp p op)).Perm (combined p) ∨
    ∃ s, op = Op.alloc s ∧
      (combined (applyOp p op)).Perm (combined p ++ [⟨p.next_ptr, s⟩]) := by
  rcases combined_perm p op with ⟨hperm, _⟩ | ⟨s, hop, hperm, _⟩
  · exact Or.inl hperm
  · exact Or.inr ⟨s, hop, hperm⟩

/-- Address bookkeeping invariant: the addresses of all blocks owned by the
pool are pairwise distinct, and all lie strictly below the fresh-address
counter. -/
def AddrInv (p : MemoryPool) : Prop :=
  ((combined p).map MemoryBlock.ptr).Nodup ∧
  ∀ b ∈ combined p, b.ptr < p.next_ptr

/-- A fresh pool satisfies the address invariant. -/
theorem addrInv_new (cap : Nat) : AddrInv (MemoryPool.new cap) := by
  constructor
  · exact List.nodup_nil
  · intro b hb
    cases hb

/-- Every call preserves the address invariant. -/
theorem addrInv_applyOp (p : MemoryPool) (op : Op) (h : AddrInv p) :
    AddrInv (applyOp p op) := by
  obtain ⟨hnodup, hbound⟩ := h
  rcases combined_perm p op with ⟨hperm, hnext⟩ | ⟨s, _, hperm, hnext⟩
  · constructor
    · exact ((hperm.map MemoryBlock.ptr).nodup_iff).mpr hnodup
    · intro b hb
      rw [hnext]
      exact hbound b (hperm.mem_iff.mp hb)
  · constructor
    · have hmap : ((combined (applyOp p op)).map MemoryBlock.ptr).Perm
          (((combined p).map MemoryBlock.ptr) ++ [p.next_ptr]) := by
        have := hperm.map MemoryBlock.ptr
        rw [List.map_append] at this
        exact this
      rw [hmap.nodup_iff]
      have hnotmem : p.next_ptr ∉ (combined p).map MemoryBlock.ptr := by
        intro hc
        obtain ⟨b, hbmem, hbptr⟩ := List.mem_map.mp hc
        exact absurd (hbptr ▸ hbound b hbmem) (Nat.lt_irrefl _)
      rw [(List.perm_append_singleton _ _).nodup_iff]
      exact List.nodup_cons.mpr ⟨hnotmem, hnodup⟩
    · intro b hb
      rw [hnext]
      have hb2 := hperm.mem_iff.mp hb
      rcases List.mem_append.mp hb2 with hb3 | hb3
      · exact Nat.lt_succ_of_lt (hbound b hb3)
      · have : b = ⟨p.next_ptr, s⟩ := by simpa using hb3
        rw [this]
        exact Nat.lt_succ_self _

/-- The address invariant holds after any run of calls from an invariant
state. -/
theorem addrInv_run (p : MemoryPool) (ops : List Op) (h : AddrInv p) :
    AddrInv (run p ops) := by
  induction ops generalizing p with
  | nil => exact h
  | cons op rest ih => exact ih (applyOp p op) (addrInv_applyOp p op h)

/-- C6: in every state reachable from a fresh pool by any sequence of
allocate and deallocate calls, the active list carries no duplicate
address and the free and active address sets are disjoint. -/
theorem active_nodup_free_disjoint (cap : Nat) (ops : List Op) :
    ((run (MemoryPool.new cap) ops).allocated_list.map MemoryBlock.ptr).Nodup ∧
    ∀ a ∈ (run (MemoryPool.new cap) ops).free_list.map MemoryBlock.ptr,
      a ∉ (run (MemoryPool.new cap) ops).allocated_list.map MemoryBlock.ptr := by
  obtain ⟨hnodup, _⟩ := addrInv_run (MemoryPool.new cap) ops (addrInv_new cap)
  rw [combined, List.map_append, List.nodup_append] at hnodup
  exact ⟨hnodup.2.1, hnodup.2.2⟩

/-- C8 counterexample: in the reachable pool `create(20); a = allocate(10);
b = allocate(5); deallocate(a)`, the active list holds block `(1, 5)`;
deallocating it (a region of size 5) and then requesting 3 ≤ 5 before any
other allocate returns address 0 — the older free block — not address 1. -/
theorem reuse_not_most_recent_counterexample :
    (⟨1, 5⟩ : MemoryBlock) ∈
      (run (MemoryPool.new 20) [Op.alloc 10, Op.alloc 5, Op.dealloc 0]).allocated_list ∧
    (3 : Nat) ≤ 5 ∧
    (((run (MemoryPool.new 20) [Op.alloc 10, Op.alloc 5, Op.dealloc 0]).deallocate 1).allocate
        3).1 = some 0 ∧
    (0 : Nat) ≠ 1 := by
  decide

/-- C8 amended: if the handed-in address first matches block `blk` in the
active list, every block in the free list at deallocation time is smaller
than the follow-up request `s`, and `s ≤ blk.size`, then deallocating and
immediately allocating `s` returns `blk`'s address. (The original claim
omits the free-list condition; first-fit serves the oldest qualifying free
entry, which needs not be the region just freed.) -/
theorem reuse_after_dealloc (p : MemoryPool) (ptr s : Nat) (i : Nat)
    (blk : MemoryBlock)
    (hp : position (fun b => b.ptr == ptr) p.allocated_list = some i)
    (hg : p.allocated_list.get? i = some blk)
    (hsmall : ∀ b ∈ p.free_list, b.size < s)
    (hs : s ≤ blk.size) :
    ((p.deallocate ptr).allocate s).1 = some blk.ptr := by
  have he := deallocate_eq_found p ptr i blk hp hg
  have hr : removeFirstFit s (p.deallocate ptr).free_list = some (blk, p.free_list) := by
    rw [he]
    have happ := removeFirstFit_append s p.free_list [] blk hsmall hs
    simpa using happ
  rw [allocate_eq_reuse (p.deallocate ptr) s blk p.free_list hr]

/-- Witness for the amended C8, mirroring the Rust unit test: after
`create(1024); allocate(256); deallocate(0)`, requesting 256 again returns
the original address 0. -/
theorem reuse_after_dealloc_witness :
    ((((MemoryPool.new 1024).allocate 256).2.deallocate 0).allocate 256).1 = some 0 :=
  reuse_after_dealloc (((MemoryPool.new 1024).allocate 256).2) 0 256 0 ⟨0, 256⟩
    (by decide) (by decide) (by decide) (by decide)
